import Mathlib

/-!
Shallow embedding of the treemap threshold/aggregation algorithm of
`src/Treemap.js` (class `Treemap`, methods `_thresholdFunction` /
`thresholdByDepth` / `sum` and the constructor defaults).

JavaScript numbers are modelled by `JSNum` (a rational, or one of the
IEEE special values NaN / +Infinity / -Infinity); JavaScript object
identity (what `===` and `Array.prototype.indexOf` compare on objects)
is modelled by a reference id `rid` carried by every `Record`: two
distinct live objects always have distinct `rid`s, and two model records
are equal exactly when they model the same object.
-/

/-- Model of a JavaScript number: a finite rational or one of the
special values `NaN`, `Infinity`, `-Infinity`. -/
inductive JSNum where
  | num : ℚ → JSNum
  | nan : JSNum
  | inf : JSNum
  | ninf : JSNum
deriving DecidableEq, Repr

/-- Rational addition written through `mkRat` so that the kernel can
evaluate it on concrete inputs; `ratAdd_eq` proves it is `(· + ·)`. -/
def ratAdd (a b : ℚ) : ℚ :=
  mkRat (a.num * (b.den : Int) + b.num * (a.den : Int)) (a.den * b.den)

/-- Rational multiplication written through `mkRat` so that the kernel
can evaluate it on concrete inputs; `ratMul_eq` proves it is
`(· * ·)`. -/
def ratMul (a b : ℚ) : ℚ :=
  mkRat (a.num * b.num) (a.den * b.den)

theorem ratNumCast (a : ℚ) : (a.num : ℚ) = a * a.den := by
  have ha : ((a.den : ℚ)) ≠ 0 := by
    exact_mod_cast a.den_nz
  exact (div_eq_iff ha).mp (Rat.num_div_den a)

theorem ratAdd_eq (a b : ℚ) : ratAdd a b = a + b := by
  have ha : ((a.den : ℚ)) ≠ 0 := by
    exact_mod_cast a.den_nz
  have hb : ((b.den : ℚ)) ≠ 0 := by
    exact_mod_cast b.den_nz
  rw [ratAdd, Rat.mkRat_eq_div]
  push_cast
  rw [div_eq_iff (mul_ne_zero ha hb), ratNumCast a, ratNumCast b]
  ring

theorem ratMul_eq (a b : ℚ) : ratMul a b = a * b := by
  have ha : ((a.den : ℚ)) ≠ 0 := by
    exact_mod_cast a.den_nz
  have hb : ((b.den : ℚ)) ≠ 0 := by
    exact_mod_cast b.den_nz
  rw [ratMul, Rat.mkRat_eq_div]
  push_cast
  rw [div_eq_iff (mul_ne_zero ha hb), ratNumCast a, ratNumCast b]
  ring

namespace JSNum

/-- JavaScript addition (`x + y`) on numbers. -/
def jsAdd : JSNum → JSNum → JSNum
  | num a, num b => num (ratAdd a b)
  | nan, _ => nan
  | _, nan => nan
  | inf, ninf => nan
  | ninf, inf => nan
  | inf, _ => inf
  | _, inf => inf
  | ninf, _ => ninf
  | _, ninf => ninf

/-- JavaScript multiplication (`x * y`) on numbers. -/
def jsMul : JSNum → JSNum → JSNum
  | num a, num b => num (ratMul a b)
  | nan, _ => nan
  | _, nan => nan
  | inf, inf => inf
  | inf, ninf => ninf
  | ninf, inf => ninf
  | ninf, ninf => inf
  | inf, num b => if b = 0 then nan else if 0 < b then inf else ninf
  | num a, inf => if a = 0 then nan else if 0 < a then inf else ninf
  | ninf, num b => if b = 0 then nan else if 0 < b then ninf else inf
  | num a, ninf => if a = 0 then nan else if 0 < a then ninf else inf

/-- JavaScript strict comparison `x < y` (false whenever either side is NaN). -/
def jsLt : JSNum → JSNum → Bool
  | num a, num b => decide (a < b)
  | nan, _ => false
  | _, nan => false
  | inf, inf => false
  | ninf, ninf => false
  | inf, _ => false
  | _, inf => true
  | _, ninf => false
  | ninf, _ => true

/-- JavaScript `Math.max(x, y)`: NaN if either argument is NaN. -/
def jsMax : JSNum → JSNum → JSNum
  | nan, _ => nan
  | _, nan => nan
  | inf, _ => inf
  | _, inf => inf
  | ninf, b => b
  | a, ninf => a
  | num a, num b => num (max a b)

/-- JavaScript `Math.min(x, y)`: NaN if either argument is NaN. -/
def jsMin : JSNum → JSNum → JSNum
  | nan, _ => nan
  | _, nan => nan
  | ninf, _ => ninf
  | _, ninf => ninf
  | inf, b => b
  | a, inf => a
  | num a, num b => num (min a b)

/-- JavaScript `isFinite(x)` (so `¬ isFiniteJS x` is exactly
`!isFinite(x) || isNaN(x)` of the source's guard, since `isNaN` implies
`!isFinite`). -/
def isFiniteJS : JSNum → Bool
  | num _ => true
  | _ => false

/-- JavaScript truthiness of a number: 0 and NaN are falsy, everything
else is truthy. -/
def truthy : JSNum → Bool
  | num a => decide (a ≠ 0)
  | nan => false
  | _ => true

end JSNum

open JSNum

/-- Model of a data record. `rid` models the JavaScript object
reference (identity); `k`, `k2` are string fields used as grouping keys,
`v` and `value` are numeric fields. `_isAggregation` and `_threshold`
model the two fields the aggregator stamps onto a merged record (absent
on ordinary records: `false` / `none`). -/
structure Record where
  rid : Nat := 0
  k : String := ""
  k2 : String := ""
  v : JSNum := JSNum.num 0
  value : JSNum := JSNum.num 0
  _isAggregation : Bool := false
  _threshold : Option JSNum := none
deriving DecidableEq, Repr

/-- A node of the grouped tree handed to `_thresholdFunction` (as built
by d3-collection `nest().entries`): a `key` and a list of child
branches (`values`). The algorithm only ever reads these two fields. -/
inductive Branch where
  | node : String → List Branch → Branch
deriving Repr

/-- The group key of a branch (`branch.key`). -/
def Branch.key : Branch → String
  | .node k _ => k

/-- The child branches of a branch (`branch.values`). -/
def Branch.values : Branch → List Branch
  | .node _ vs => vs

/-- d3-array `sum(data, accessor)`: starts from 0 and adds each value
that is truthy (so NaN and 0 are skipped). -/
def d3Sum (data : List Record) (f : Record → JSNum) : JSNum :=
  data.foldl (fun s r => if truthy (f r) then jsAdd s (f r) else s) (JSNum.num 0)

/-- JavaScript `Array.prototype.indexOf`: index of the first element
`===`-equal to `a`, or `-1` if none. On objects `===` is reference
identity, which record equality models (distinct objects have distinct
`rid`s). -/
def jsIndexOf (l : List Record) (a : Record) : Int :=
  match l with
  | [] => -1
  | b :: t =>
    if b = a then 0
    else if jsIndexOf t a < 0 then -1 else jsIndexOf t a + 1

/-- The start-index normalization of `Array.prototype.splice`: a
negative start counts from the end and is clamped at 0. -/
def spliceStart (l : List Record) (i : Int) : Nat :=
  if i < 0 then (l.length + i).toNat else i.toNat

/-- JavaScript `arr.splice(i, 1)`: removes one element starting at the
normalized index (removes nothing when the index is at or past the
end). -/
def spliceOne (l : List Record) (i : Int) : List Record :=
  l.take (spliceStart l i) ++ l.drop (spliceStart l i + 1)

/-- `Math.min(1, Math.max(0, p))`: the clamping applied to the value
returned by the threshold function (src/Treemap.js line 202). -/
def clampPercent (p : JSNum) : JSNum :=
  jsMin (JSNum.num 1) (jsMax (JSNum.num 0) p)

/-- The removal loop of `thresholdByDepth` (src/Treemap.js lines
208-216): iterates `nextDataset` from the last index down (`while
(n--)`), and for each item whose weight is strictly below
`thresholdValue` splices it out of `finalDataset` at its `indexOf`
position and pushes it onto `removedItems`. Returns the updated
`finalDataset` and `removedItems`. The head of the list is processed
last, so the recursive call on the tail runs first. -/
def removeLoop (tk : Record → JSNum) (tv : JSNum) :
    List Record → List Record → List Record × List Record
  | [], fd => (fd, [])
  | item :: rest, fd =>
    let res := removeLoop tk tv rest fd
    if jsLt (tk item) tv then
      (spliceOne res.1 (jsIndexOf res.1 item), res.2 ++ [item])
    else res

/-- The configuration captured by the inner `thresholdByDepth` closure:
`drawDepth`, `groupBy`, the threshold function, the threshold key
accessor, and `merge(·, aggs)` from d3plus-common bundled as `mergeFn`
(an external collaborator, passed through opaquely). -/
structure Ctx where
  drawDepth : Nat
  groupBy : List (Record → String)
  threshold : List Record → JSNum
  thresholdKey : Record → JSNum
  mergeFn : List Record → Record

/-- The `while (n--)` loop over `branch.values` (src/Treemap.js lines
226-230): children are processed from the last index down, so the head
of the list is processed last; `f` processes one child branch against
the current final dataset. -/
def foldBranches (f : Branch → List Record → List Record) :
    List Branch → List Record → List Record
  | [], fd => fd
  | b :: rest, fd => f b (foldBranches f rest fd)

/-- `thresholdByDepth(finalDataset, totalSum, currentDataset, branch,
depth)` of src/Treemap.js lines 192-232, with the mutated
`finalDataset` threaded explicitly and the recursion bounded by `fuel`.
In the source the recursion is on the branch tree but every recursive
call increments `depth` and the first line returns as soon as
`depth >= drawDepth`, so recursion depth never exceeds
`drawDepth - depth`; `thresholdByDepth` instantiates `fuel` with
exactly that bound, making the `fuel = 0` case coincide with the
source's `depth >= drawDepth` early return. -/
def thresholdStep (c : Ctx) (ts : JSNum) :
    Nat → List Record → List Record → Branch → Nat → List Record
  | 0, fd, _, _, _ => fd
  | fuel + 1, fd, cur, b, depth =>
    if c.drawDepth ≤ depth then fd
    else
      let acc := c.groupBy.getD depth (fun _ => "")
      let nextDataset := cur.filter (fun item => acc item == b.key)
      if depth + 1 = c.drawDepth then
        let thresholdPercent := clampPercent (c.threshold nextDataset)
        if isFiniteJS thresholdPercent = false then fd
        else
          let thresholdValue := jsMul thresholdPercent ts
          let res := removeLoop c.thresholdKey thresholdValue nextDataset fd
          if res.2.length > 0 then
            let m := c.mergeFn res.2
            res.1 ++
              [{ m with _isAggregation := true,
                        _threshold := some thresholdPercent }]
          else res.1
      else
        foldBranches (fun b' fd' => thresholdStep c ts fuel fd' nextDataset b' (depth + 1))
          b.values fd

/-- `thresholdByDepth` at its call sites: the fuel is the bound
`drawDepth - depth` enforced by the source's own depth guard. -/
def thresholdByDepth (c : Ctx) (ts : JSNum) (fd cur : List Record)
    (b : Branch) (depth : Nat) : List Record :=
  thresholdStep c ts (c.drawDepth - depth) fd cur b depth

/-- The `while (n--)` loop over the root `tree` (src/Treemap.js lines
173-177): each root branch is processed at depth 0 with
`currentDataset = data`; branches are processed from the last index
down, so the head of the list is processed last. -/
def thresholdTree (c : Ctx) (ts : JSNum) (data : List Record) :
    List Branch → List Record → List Record
  | [], fd => fd
  | b :: rest, fd =>
    thresholdByDepth c ts (thresholdTree c ts data rest fd) data b 0

/-- The configuration read from `this` by `_thresholdFunction`
(src/Treemap.js lines 163-167): `threshold` and `thresholdKey` may be
absent (`none` models a falsy value). -/
structure TreemapConfig where
  drawDepth : Nat
  groupBy : List (Record → String)
  threshold : Option (List Record → JSNum)
  thresholdKey : Option (Record → JSNum)
  mergeFn : List Record → Record

/-- `Treemap._thresholdFunction(data, tree)` (src/Treemap.js lines
162-235): when both `threshold` and `thresholdKey` are present it copies
`data` (`data.slice()`), computes the d3-array sum of the threshold key
over it, runs `thresholdByDepth` on every root branch, and returns the
(list value of the) final dataset; otherwise it returns `data`. -/
def _thresholdFunction (cfg : TreemapConfig) (data : List Record)
    (tree : List Branch) : List Record :=
  match cfg.threshold, cfg.thresholdKey with
  | some th, some tk =>
    let c : Ctx := { drawDepth := cfg.drawDepth, groupBy := cfg.groupBy,
                     threshold := th, thresholdKey := tk,
                     mergeFn := cfg.mergeFn }
    let totalSum := d3Sum data tk
    thresholdTree c totalSum data tree data
  | _, _ => data

/-- d3-array style sum of a list of numbers (used by the merge model):
starts from 0 and adds every truthy value. -/
def d3SumNums (vs : List JSNum) : JSNum :=
  vs.foldl (fun s v => if truthy v then jsAdd s v else s) (JSNum.num 0)

/-- Model of d3plus-common `merge(objects, aggs)` with the default empty
`aggs`, specialised to this record shape (an external collaborator of
src/Treemap.js, passed through opaquely as `aggs`): numeric fields are
summed with d3-array sum semantics, string fields are taken from the
first record (the scenarios only merge records agreeing on them), and
the result is a fresh object, modelled by the fresh reference id 100
(never used by scenario records). -/
def defaultMerge (l : List Record) : Record :=
  { rid := 100
    k := (l.map (fun r => r.k)).headD ""
    k2 := (l.map (fun r => r.k2)).headD ""
    v := d3SumNums (l.map (fun r => r.v))
    value := d3SumNums (l.map (fun r => r.value))
    _isAggregation := false
    _threshold := none }

/-- Unfolding of `thresholdByDepth` at the leaf-adjacent depth
(`depth + 1 === drawDepth`): clamp the threshold function's result,
skip the branch when the clamped value is not finite, otherwise run the
removal loop and append at most one stamped aggregate. -/
theorem thresholdByDepth_leaf (c : Ctx) (ts : JSNum) (fd cur : List Record)
    (b : Branch) (depth : Nat) (hd : depth + 1 = c.drawDepth) :
    thresholdByDepth c ts fd cur b depth =
      (let nextDataset :=
        cur.filter (fun item => (c.groupBy.getD depth (fun _ => "")) item == b.key)
      let thresholdPercent := clampPercent (c.threshold nextDataset)
      if isFiniteJS thresholdPercent = false then fd
      else
        let res := removeLoop c.thresholdKey (jsMul thresholdPercent ts) nextDataset fd
        if res.2.length > 0 then
          res.1 ++
            [{ c.mergeFn res.2 with _isAggregation := true,
                                    _threshold := some thresholdPercent }]
        else res.1) := by
  have h1 : c.drawDepth - depth = 1 := by omega
  have hlt : ¬ c.drawDepth ≤ depth := by omega
  unfold thresholdByDepth
  rw [h1]
  unfold thresholdStep
  simp only [if_neg hlt, if_pos hd]

/-- The dataset of spec scenario 1: `[{k:"a",v:10},{k:"a",v:1},{k:"b",v:50}]`
(reference ids 0, 1, 2). -/
def dataC6 : List Record :=
  [{ rid := 0, k := "a", v := JSNum.num 10 },
   { rid := 1, k := "a", v := JSNum.num 1 },
   { rid := 2, k := "b", v := JSNum.num 50 }]

/-- The grouped tree for scenario 1: two root branches `"a"` and `"b"`
at the leaf-adjacent depth. -/
def treeC6 : List Branch := [Branch.node "a" [], Branch.node "b" []]

/-- The configuration of scenario 1: `drawDepth=1`, `groupBy=[r=>r.k]`,
`threshold=()=>0.5`, `thresholdKey=r=>r.v`. -/
def cfgC6 : TreemapConfig :=
  { drawDepth := 1
    groupBy := [fun r => r.k]
    threshold := some (fun _ => JSNum.num (mkRat 1 2))
    thresholdKey := some (fun r => r.v)
    mergeFn := defaultMerge }

/-- Claim C6: on scenario 1 the total sum is 61 and the threshold value
is 30.5; both items of branch "a" are removed and merged into one
aggregate with summed value 11, `_isAggregation = true` and
`_threshold = 0.5`; the item of branch "b" is kept; the output is
exactly `{k:"b",v:50}` followed by that aggregate. -/
theorem c6_scenario1 :
    d3Sum dataC6 (fun r => r.v) = JSNum.num 61 ∧
    jsMul (clampPercent (JSNum.num (mkRat 1 2))) (JSNum.num 61)
      = JSNum.num (mkRat 61 2) ∧
    _thresholdFunction cfgC6 dataC6 treeC6 =
      [{ rid := 2, k := "b", v := JSNum.num 50 },
       { rid := 100, k := "a", v := JSNum.num 11,
         _isAggregation := true,
         _threshold := some (JSNum.num (mkRat 1 2)) }] := by
  decide

/-- A dataset for refuting the Infinity half of the claim about
non-finite thresholds: two records in branch "a" with weights 1 and 9. -/
def dataInf : List Record :=
  [{ rid := 0, k := "a", v := JSNum.num 1 },
   { rid := 1, k := "a", v := JSNum.num 9 }]

/-- The grouped tree for `dataInf`: one root branch "a". -/
def treeInf : List Branch := [Branch.node "a" []]

/-- A configuration whose threshold function returns `Infinity`. -/
def cfgInf : TreemapConfig :=
  { drawDepth := 1
    groupBy := [fun r => r.k]
    threshold := some (fun _ => JSNum.inf)
    thresholdKey := some (fun r => r.v)
    mergeFn := defaultMerge }

/-- Claim C1 (counterexample): a threshold function returning the
non-finite value `Infinity` does not make the branch be skipped.  On
`dataInf` the clamp turns `Infinity` into 1 before the finiteness
guard, the threshold value is the whole total sum 10, and both records
of branch "a" are removed and replaced by an aggregate, so the output
differs from the input. -/
theorem c1_counterexample :
    isFiniteJS JSNum.inf = false ∧
    clampPercent JSNum.inf = JSNum.num 1 ∧
    _thresholdFunction cfgInf dataInf treeInf ≠ dataInf ∧
    ({ rid := 0, k := "a", v := JSNum.num 1 } : Record) ∉
      _thresholdFunction cfgInf dataInf treeInf := by
  decide

/-- Claim C1 (amended): at the leaf-adjacent depth the effective
threshold fraction is `max(0, min(1, p))` when the threshold function's
result `p` is finite; when `p` is NaN the branch is silently skipped
(records left unmodified); when `p` is `Infinity` the clamp yields 1
and when `-Infinity` it yields 0, and in those cases the branch is
processed with that clamped fraction. -/
theorem c1_threshold_clamp (c : Ctx) (ts : JSNum) (fd cur : List Record)
    (b : Branch) (depth : Nat) (hd : depth + 1 = c.drawDepth) :
    (c.threshold
        (cur.filter (fun item => (c.groupBy.getD depth (fun _ => "")) item == b.key))
          = JSNum.nan →
      thresholdByDepth c ts fd cur b depth = fd) ∧
    clampPercent JSNum.nan = JSNum.nan ∧
    clampPercent JSNum.inf = JSNum.num 1 ∧
    clampPercent JSNum.ninf = JSNum.num 0 ∧
    (∀ q : ℚ, clampPercent (JSNum.num q) = JSNum.num (max 0 (min 1 q))) := by
  refine ⟨?_, by decide, by decide, by decide, ?_⟩
  · intro hnan
    rw [thresholdByDepth_leaf c ts fd cur b depth hd]
    simp only [hnan]
    rfl
  · intro q
    show JSNum.num (min 1 (max 0 q)) = JSNum.num (max 0 (min 1 q))
    congr 1
    simp only [min_def, max_def]
    split_ifs <;> linarith

/-- A leaf-adjacent context whose threshold function returns NaN on
every input (as a division-by-zero style threshold would on an empty
branch). -/
def ctxNan : Ctx :=
  { drawDepth := 1
    groupBy := [fun r => r.k]
    threshold := fun _ => JSNum.nan
    thresholdKey := fun r => r.v
    mergeFn := defaultMerge }

/-- Witness for `c1_threshold_clamp` at a concrete input: with a
NaN-returning threshold the branch is left unmodified. -/
theorem c1_threshold_clamp_witness :
    thresholdByDepth ctxNan (JSNum.num 0) [] [] (Branch.node "a" []) 0 = [] :=
  (c1_threshold_clamp ctxNan (JSNum.num 0) [] [] (Branch.node "a" []) 0
    (by decide)).1 (by decide)

/-- Claim C2: if `threshold` or `thresholdKey` is absent (falsy),
`_thresholdFunction` is a no-op: it returns the input data unchanged —
same records, same order, no aggregates added. -/
theorem c2_noop (cfg : TreemapConfig) (data : List Record) (tree : List Branch)
    (h : cfg.threshold = none ∨ cfg.thresholdKey = none) :
    _thresholdFunction cfg data tree = data := by
  rcases hth : cfg.threshold with _ | th <;>
    rcases htk : cfg.thresholdKey with _ | tk <;>
    simp_all [_thresholdFunction]

/-- A configuration with no threshold function configured. -/
def cfgNoThreshold : TreemapConfig :=
  { drawDepth := 1
    groupBy := [fun r => r.k]
    threshold := none
    thresholdKey := some (fun r => r.v)
    mergeFn := defaultMerge }

/-- Witness for `c2_noop` at a concrete input. -/
theorem c2_noop_witness :
    _thresholdFunction cfgNoThreshold
        [{ rid := 0, k := "a", v := JSNum.num 3 }] [Branch.node "a" []]
      = [{ rid := 0, k := "a", v := JSNum.num 3 }] :=
  c2_noop cfgNoThreshold _ _ (Or.inl rfl)

/-- Claim C8: at the leaf-adjacent depth, an empty branch
(`nextDataset = []`) whose threshold function returns NaN on the empty
input does not crash the aggregator: the finiteness guard makes the
branch be left unmodified and no aggregate is produced for it. -/
theorem c8_empty_branch (c : Ctx) (ts : JSNum) (fd cur : List Record)
    (b : Branch) (depth : Nat) (hd : depth + 1 = c.drawDepth)
    (hempty :
      cur.filter (fun item => (c.groupBy.getD depth (fun _ => "")) item == b.key) = [])
    (hnan : c.threshold [] = JSNum.nan) :
    thresholdByDepth c ts fd cur b depth = fd := by
  rw [thresholdByDepth_leaf c ts fd cur b depth hd]
  simp only [hempty, hnan]
  rfl

/-- Witness for `c8_empty_branch` at a concrete input: record in branch
"b", empty branch "a", NaN threshold, dataset unchanged. -/
theorem c8_empty_branch_witness :
    thresholdByDepth ctxNan (JSNum.num 7)
        [{ rid := 0, k := "b", v := JSNum.num 7 }]
        [{ rid := 0, k := "b", v := JSNum.num 7 }]
        (Branch.node "a" []) 0
      = [{ rid := 0, k := "b", v := JSNum.num 7 }] :=
  c8_empty_branch ctxNan (JSNum.num 7) _ _ (Branch.node "a" []) 0
    (by decide) (by decide) (by decide)

theorem jsIndexOf_nonneg (l : List Record) (a : Record) (h : a ∈ l) :
    0 ≤ jsIndexOf l a := by
  induction l with
  | nil => simp at h
  | cons b t ih =>
    rw [jsIndexOf]
    by_cases hb : b = a
    · simp [hb]
    · rcases List.mem_cons.mp h with h1 | h1
      · exact absurd h1.symm hb
      · have h2 := ih h1
        rw [if_neg hb, if_neg (by omega)]
        omega

theorem spliceOne_cons (b : Record) (t : List Record) (r : Int) (hr : 0 ≤ r) :
    spliceOne (b :: t) (r + 1) = b :: spliceOne t r := by
  have h1 : ¬ (r + 1 < 0) := by omega
  have h0 : ¬ (r < 0) := by omega
  have ht : (r + 1).toNat = r.toNat + 1 := by omega
  rw [spliceOne, spliceOne, spliceStart, spliceStart, if_neg h1, if_neg h0, ht]
  rfl

/-- When `a` is an element of `l`, splicing at `indexOf(a)` is exactly
erasing the first occurrence of `a`. -/
theorem spliceOne_jsIndexOf (l : List Record) (a : Record) (h : a ∈ l) :
    spliceOne l (jsIndexOf l a) = l.erase a := by
  induction l with
  | nil => simp at h
  | cons b t ih =>
    by_cases hb : b = a
    · rw [jsIndexOf, if_pos hb, List.erase_cons, if_pos (by simp [hb])]
      rfl
    · have hat : a ∈ t := by
        rcases List.mem_cons.mp h with h1 | h1
        · exact absurd h1.symm hb
        · exact h1
      have hnn := jsIndexOf_nonneg t a hat
      rw [jsIndexOf, if_neg hb, if_neg (by omega), spliceOne_cons b t _ hnn,
          ih hat, List.erase_cons, if_neg (by simp [hb])]

/-- The `removedItems` list built by the removal loop: exactly the
items of `nextDataset` whose weight is strictly below the threshold
value, in reverse iteration order. -/
theorem removeLoop_snd (tk : Record → JSNum) (tv : JSNum)
    (items fd : List Record) :
    (removeLoop tk tv items fd).2
      = items.reverse.filter (fun r => jsLt (tk r) tv) := by
  induction items with
  | nil => rfl
  | cons item rest ih =>
    cases hlt : jsLt (tk item) tv <;>
      simp [removeLoop, hlt, ih, List.filter_append]

/-- The final dataset produced by the removal loop: when the dataset
has no duplicate references and contains all the branch's items, the
loop removes exactly the below-threshold items of the branch. -/
theorem removeLoop_fst (tk : Record → JSNum) (tv : JSNum)
    (items fd : List Record) (hfd : fd.Nodup) (hnd : items.Nodup)
    (hsub : ∀ x ∈ items, x ∈ fd) :
    (removeLoop tk tv items fd).1
      = fd.filter (fun r => !(decide (r ∈ items) && jsLt (tk r) tv)) := by
  induction items with
  | nil => simp [removeLoop]
  | cons item rest ih =>
    have hnd' := List.nodup_cons.mp hnd
    have hsub' : ∀ x ∈ rest, x ∈ fd :=
      fun x hx => hsub x (List.mem_cons_of_mem _ hx)
    have ihh := ih hnd'.2 hsub'
    cases hlt : jsLt (tk item) tv with
    | false =>
      rw [removeLoop]
      simp only [hlt, Bool.false_eq_true, if_false]
      rw [ihh]
      refine List.filter_congr ?_
      intro x _
      by_cases hx1 : x = item
      · subst hx1
        simp [hlt]
      · simp [List.mem_cons, hx1]
    | true =>
      rw [removeLoop]
      simp only [hlt, if_true]
      have hmem : item ∈ (removeLoop tk tv rest fd).1 := by
        rw [ihh, List.mem_filter]
        refine ⟨hsub item (List.mem_cons_self item rest), ?_⟩
        simp [hnd'.1]
      have hnodup1 : (removeLoop tk tv rest fd).1.Nodup := by
        rw [ihh]
        exact hfd.filter _
      rw [spliceOne_jsIndexOf _ _ hmem, List.Nodup.erase_eq_filter hnodup1 item,
          ihh, List.filter_filter]
      refine List.filter_congr ?_
      intro x _
      by_cases hx1 : x = item
      · subst hx1
        simp [hlt, hnd'.1]
      · simp [List.mem_cons, hx1]

theorem spliceOne_sublist (l : List Record) (i : Int) : List.Sublist (spliceOne l i) l := by
  rw [spliceOne]
  have h1 : List.Sublist (l.drop (spliceStart l i + 1)) (l.drop (spliceStart l i)) := by
    have h2 := List.drop_sublist 1 (l.drop (spliceStart l i))
    rw [List.drop_drop] at h2
    exact h2
  have h2 : List.Sublist
      (l.take (spliceStart l i) ++ l.drop (spliceStart l i + 1))
      (l.take (spliceStart l i) ++ l.drop (spliceStart l i)) :=
    List.Sublist.append_left h1 _
  rw [List.take_append_drop] at h2
  exact h2

/-- Every record of the removal loop's final dataset was already in the
incoming final dataset (in order): the loop only deletes. -/
theorem removeLoop_fst_sublist (tk : Record → JSNum) (tv : JSNum)
    (items fd : List Record) : List.Sublist (removeLoop tk tv items fd).1 fd := by
  induction items with
  | nil => simp [removeLoop]
  | cons item rest ih =>
    rw [removeLoop]
    cases hlt : jsLt (tk item) tv with
    | false => simpa [hlt] using ih
    | true =>
      simp only [hlt, if_true]
      exact (spliceOne_sublist _ _).trans ih

theorem jsLt_irrefl (x : JSNum) : jsLt x x = false := by
  cases x <;> simp [jsLt]

/-- Claim C3: at the leaf-adjacent depth with a finite clamped
threshold, everything in the output other than (possibly) one final
aggregate comes from the incoming dataset; the aggregate exists exactly
when the branch's removed set is non-empty, carries
`_isAggregation = true` and `_threshold` equal to the clamped fraction,
and sits at the end of the output. -/
theorem c3_at_most_one_aggregate (c : Ctx) (ts : JSNum) (fd cur : List Record)
    (b : Branch) (depth : Nat) (nextDataset : List Record) (p : JSNum)
    (res : List Record × List Record)
    (hd : depth + 1 = c.drawDepth)
    (hnext : nextDataset =
      cur.filter (fun item => (c.groupBy.getD depth (fun _ => "")) item == b.key))
    (hp : p = clampPercent (c.threshold nextDataset))
    (hres : res = removeLoop c.thresholdKey (jsMul p ts) nextDataset fd)
    (hfin : isFiniteJS p = true) :
    List.Sublist res.1 fd ∧
    (res.2 = [] → thresholdByDepth c ts fd cur b depth = res.1) ∧
    (res.2 ≠ [] →
      thresholdByDepth c ts fd cur b depth =
        res.1 ++
          [{ c.mergeFn res.2 with _isAggregation := true, _threshold := some p }] ∧
      ({ c.mergeFn res.2 with _isAggregation := true,
                              _threshold := some p } : Record)._isAggregation = true ∧
      ({ c.mergeFn res.2 with _isAggregation := true,
                              _threshold := some p } : Record)._threshold = some p) := by
  subst hnext
  subst hp
  subst hres
  refine ⟨removeLoop_fst_sublist _ _ _ _, ?_, ?_⟩
  · intro hempty
    rw [thresholdByDepth_leaf c ts fd cur b depth hd]
    simp only [hfin, Bool.true_eq_false, if_false, hempty]
    simp
  · intro hne
    rw [thresholdByDepth_leaf c ts fd cur b depth hd]
    simp only [hfin, Bool.true_eq_false, if_false]
    have hlen : (removeLoop c.thresholdKey
        (jsMul (clampPercent (c.threshold
          (cur.filter (fun item => (c.groupBy.getD depth (fun _ => "")) item == b.key)))) ts)
        (cur.filter (fun item => (c.groupBy.getD depth (fun _ => "")) item == b.key))
        fd).2.length > 0 := List.length_pos.mpr hne
    simp only [hlen, if_true]
    refine ⟨?_, ?_, ?_⟩ <;> trivial

/-- A leaf-adjacent context with a constant threshold of 0.5. -/
def ctxHalf : Ctx :=
  { drawDepth := 1
    groupBy := [fun r => r.k]
    threshold := fun _ => JSNum.num (mkRat 1 2)
    thresholdKey := fun r => r.v
    mergeFn := defaultMerge }

/-- A record of branch "a" with weight 1 (reference id 0). -/
def recA1 : Record := { rid := 0, k := "a", v := JSNum.num 1 }

/-- A record of branch "a" with weight 9 (reference id 1). -/
def recA9 : Record := { rid := 1, k := "a", v := JSNum.num 9 }

/-- Witness for `c3_at_most_one_aggregate` at a concrete input: total
10, threshold value 5, record of weight 1 removed into one stamped
aggregate appended after the kept record of weight 9. -/
theorem c3_at_most_one_aggregate_witness :
    List.Sublist [recA9] [recA1, recA9] ∧
    (([recA1] : List Record) = [] →
      thresholdByDepth ctxHalf (JSNum.num 10) [recA1, recA9] [recA1, recA9]
        (Branch.node "a" []) 0 = [recA9]) ∧
    (([recA1] : List Record) ≠ [] →
      thresholdByDepth ctxHalf (JSNum.num 10) [recA1, recA9] [recA1, recA9]
          (Branch.node "a" []) 0 =
        [recA9] ++
          [{ ctxHalf.mergeFn [recA1] with _isAggregation := true,
                                          _threshold := some (JSNum.num (mkRat 1 2)) }] ∧
      ({ ctxHalf.mergeFn [recA1] with
          _isAggregation := true,
          _threshold := some (JSNum.num (mkRat 1 2)) } : Record)._isAggregation = true ∧
      ({ ctxHalf.mergeFn [recA1] with
          _isAggregation := true,
          _threshold := some (JSNum.num (mkRat 1 2)) } : Record)._threshold
        = some (JSNum.num (mkRat 1 2))) :=
  c3_at_most_one_aggregate ctxHalf (JSNum.num 10) [recA1, recA9] [recA1, recA9]
    (Branch.node "a" []) 0 [recA1, recA9] (JSNum.num (mkRat 1 2))
    ([recA9], [recA1])
    (by decide) (by decide) (by decide) (by decide) (by decide)

/-- Claim C4: at the leaf-adjacent depth with a finite threshold
result, an item of `nextDataset` ends up removed (in `removedItems`,
and out of the final dataset) exactly when its weight is strictly below
the threshold value; an item whose weight equals the threshold value is
kept. -/
theorem c4_strict_removal (c : Ctx) (ts : JSNum) (fd cur : List Record)
    (b : Branch) (depth : Nat) (nextDataset : List Record) (tv : JSNum)
    (res : List Record × List Record)
    (hd : depth + 1 = c.drawDepth)
    (hnext : nextDataset =
      cur.filter (fun item => (c.groupBy.getD depth (fun _ => "")) item == b.key))
    (htv : tv = jsMul (clampPercent (c.threshold nextDataset)) ts)
    (hres : res = removeLoop c.thresholdKey tv nextDataset fd)
    (hfd : fd.Nodup) (hcur : cur.Nodup) (hsub : ∀ x ∈ cur, x ∈ fd) :
    ∀ x ∈ nextDataset,
      (x ∈ res.2 ↔ jsLt (c.thresholdKey x) tv = true) ∧
      (x ∈ res.1 ↔ jsLt (c.thresholdKey x) tv = false) ∧
      (c.thresholdKey x = tv → x ∈ res.1) := by
  subst hnext
  subst htv
  subst hres
  intro x hx
  have hnd : (cur.filter
      (fun item => (c.groupBy.getD depth (fun _ => "")) item == b.key)).Nodup :=
    hcur.filter _
  have hsub2 : ∀ y ∈ cur.filter
      (fun item => (c.groupBy.getD depth (fun _ => "")) item == b.key), y ∈ fd :=
    fun y hy => hsub y (List.mem_of_mem_filter hy)
  have h2 := removeLoop_snd c.thresholdKey
    (jsMul (clampPercent (c.threshold (cur.filter
      (fun item => (c.groupBy.getD depth (fun _ => "")) item == b.key)))) ts)
    (cur.filter (fun item => (c.groupBy.getD depth (fun _ => "")) item == b.key)) fd
  have h1 := removeLoop_fst c.thresholdKey
    (jsMul (clampPercent (c.threshold (cur.filter
      (fun item => (c.groupBy.getD depth (fun _ => "")) item == b.key)))) ts)
    (cur.filter (fun item => (c.groupBy.getD depth (fun _ => "")) item == b.key)) fd
    hfd hnd hsub2
  refine ⟨?_, ?_, ?_⟩
  · rw [h2, List.mem_filter, List.mem_reverse]
    exact ⟨fun h => h.2, fun h => ⟨hx, h⟩⟩
  · rw [h1, List.mem_filter]
    constructor
    · rintro ⟨-, hbool⟩
      rw [decide_eq_true hx] at hbool
      simpa using hbool
    · intro hfalse
      refine ⟨hsub2 x hx, ?_⟩
      rw [decide_eq_true hx, hfalse]
      rfl
  · intro heq
    rw [h1, List.mem_filter]
    refine ⟨hsub2 x hx, ?_⟩
    rw [decide_eq_true hx, heq, jsLt_irrefl]
    rfl

/-- Witness for `c4_strict_removal` at a concrete input: threshold
value 5; the weight-1 record is in the removed list and out of the
final dataset exactly because its weight is strictly below 5. -/
theorem c4_strict_removal_witness :
    (recA1 ∈ [recA1] ↔ jsLt (ctxHalf.thresholdKey recA1) (JSNum.num 5) = true) ∧
    (recA1 ∈ [recA9] ↔ jsLt (ctxHalf.thresholdKey recA1) (JSNum.num 5) = false) := by
  have h := c4_strict_removal ctxHalf (JSNum.num 10) [recA1, recA9] [recA1, recA9]
    (Branch.node "a" []) 0 [recA1, recA9] (JSNum.num 5) ([recA9], [recA1])
    (by decide) (by decide) (by decide) (by decide) (by decide) (by decide)
    (fun x hx => hx) recA1 (by decide)
  exact ⟨h.1, h.2.1⟩

/-- Claim C7: removal is by reference identity, not by field value.
For any two records with identical field values but distinct references
(distinct `rid`s), removing the below-threshold second instance from a
dataset holding both removes exactly that instance — the value-equal
first instance (which a value-based search would find first) stays. -/
theorem c7_identity_removal (tk : Record → JSNum) (tv : JSNum) (base : Record)
    (i j : Nat) (hij : i ≠ j)
    (hlt : jsLt (tk { base with rid := j }) tv = true) :
    removeLoop tk tv [{ base with rid := j }]
        [{ base with rid := i }, { base with rid := j }]
      = ([{ base with rid := i }], [{ base with rid := j }]) := by
  have hne : ({ base with rid := i } : Record) ≠ { base with rid := j } := by
    intro h
    exact hij (congrArg Record.rid h)
  rw [removeLoop]
  simp only [removeLoop, hlt, if_true]
  have hidx : jsIndexOf [{ base with rid := i }, { base with rid := j }]
      { base with rid := j } = 1 := by
    rw [jsIndexOf, if_neg hne, jsIndexOf, if_pos rfl]
    norm_num
  rw [hidx]
  rfl

/-- Witness for `c7_identity_removal` at a concrete input: two records
both with fields `k = "a"`, `v = 1` but reference ids 0 and 1. -/
theorem c7_identity_removal_witness :
    removeLoop (fun r => r.v) (JSNum.num 5)
        [{ rid := 1, k := "a", v := JSNum.num 1 }]
        [{ rid := 0, k := "a", v := JSNum.num 1 },
         { rid := 1, k := "a", v := JSNum.num 1 }]
      = ([{ rid := 0, k := "a", v := JSNum.num 1 }],
         [{ rid := 1, k := "a", v := JSNum.num 1 }]) :=
  c7_identity_removal (fun r => r.v) (JSNum.num 5)
    { k := "a", v := JSNum.num 1 } 0 1 (by decide) (by decide)

/-- Unfolding of `thresholdStep` at the leaf-adjacent depth, at any
positive fuel. -/
theorem thresholdStep_leaf (c : Ctx) (ts : JSNum) (n : Nat)
    (fd cur : List Record) (b : Branch) (depth : Nat)
    (hle : ¬ c.drawDepth ≤ depth) (hleaf : depth + 1 = c.drawDepth) :
    thresholdStep c ts (n + 1) fd cur b depth =
      (let nextDataset :=
        cur.filter (fun item => (c.groupBy.getD depth (fun _ => "")) item == b.key)
      let thresholdPercent := clampPercent (c.threshold nextDataset)
      if isFiniteJS thresholdPercent = false then fd
      else
        let res := removeLoop c.thresholdKey (jsMul thresholdPercent ts) nextDataset fd
        if res.2.length > 0 then
          res.1 ++
            [{ c.mergeFn res.2 with _isAggregation := true,
                                    _threshold := some thresholdPercent }]
        else res.1) := by
  rw [thresholdStep]
  simp only [if_neg hle, if_pos hleaf]

/-- Unfolding of `thresholdStep` strictly above the leaf-adjacent
depth: recurse into the child branches (last index first) against the
filtered dataset. -/
theorem thresholdStep_branch (c : Ctx) (ts : JSNum) (n : Nat)
    (fd cur : List Record) (b : Branch) (depth : Nat)
    (hle : ¬ c.drawDepth ≤ depth) (hleaf : ¬ depth + 1 = c.drawDepth) :
    thresholdStep c ts (n + 1) fd cur b depth =
      foldBranches
        (fun b' fd' => thresholdStep c ts n fd'
          (cur.filter (fun item => (c.groupBy.getD depth (fun _ => "")) item == b.key))
          b' (depth + 1))
        b.values fd := by
  rw [thresholdStep]
  simp only [if_neg hle, if_neg hleaf]

theorem foldBranches_const (f : Branch → List Record → List Record)
    (bs : List Branch) (fd : List Record) (h : ∀ b fd', f b fd' = fd') :
    foldBranches f bs fd = fd := by
  induction bs with
  | nil => rfl
  | cons b rest ih => rw [foldBranches, ih, h]

/-- If no item of the branch is strictly below the threshold value, the
removal loop removes nothing and collects nothing. -/
theorem removeLoop_no_removals (tk : Record → JSNum) (tv : JSNum)
    (items fd : List Record) (h : ∀ x ∈ items, jsLt (tk x) tv = false) :
    removeLoop tk tv items fd = (fd, []) := by
  induction items with
  | nil => rfl
  | cons item rest ih =>
    rw [removeLoop, ih (fun x hx => h x (List.mem_cons_of_mem _ hx))]
    simp [h item (List.mem_cons_self item rest)]

theorem isFiniteJS_num (p : JSNum) (h : isFiniteJS p = true) :
    ∃ q : ℚ, p = JSNum.num q := by
  cases p <;> simp_all [isFiniteJS]

/-- With a total sum of 0 and no record of strictly negative weight,
every step of the tree walk leaves the final dataset untouched. -/
theorem thresholdStep_zero_total (c : Ctx) :
    ∀ (fuel : Nat) (fd cur : List Record) (b : Branch) (depth : Nat),
      (∀ r ∈ cur, jsLt (c.thresholdKey r) (JSNum.num 0) = false) →
      thresholdStep c (JSNum.num 0) fuel fd cur b depth = fd := by
  intro fuel
  induction fuel with
  | zero =>
    intro fd cur b depth _
    rfl
  | succ n ih =>
    intro fd cur b depth hw
    by_cases hle : c.drawDepth ≤ depth
    · rw [thresholdStep]
      rw [if_pos hle]
    · by_cases hleaf : depth + 1 = c.drawDepth
      · rw [thresholdStep_leaf c (JSNum.num 0) n fd cur b depth hle hleaf]
        cases hfin : isFiniteJS (clampPercent (c.threshold
            (cur.filter (fun item => (c.groupBy.getD depth (fun _ => "")) item == b.key)))) with
        | false =>
          simp only [hfin]
          rfl
        | true =>
          obtain ⟨q, hq⟩ := isFiniteJS_num _ hfin
          have htv : jsMul (clampPercent (c.threshold
              (cur.filter (fun item => (c.groupBy.getD depth (fun _ => "")) item == b.key))))
              (JSNum.num 0) = JSNum.num 0 := by
            rw [hq]
            show JSNum.num (ratMul q 0) = JSNum.num 0
            rw [ratMul_eq, mul_zero]
          have hnr := removeLoop_no_removals c.thresholdKey (JSNum.num 0)
            (cur.filter (fun item => (c.groupBy.getD depth (fun _ => "")) item == b.key)) fd
            (fun x hx => hw x (List.mem_of_mem_filter hx))
          simp only [hfin, htv, hnr]
          rfl
      · rw [thresholdStep_branch c (JSNum.num 0) n fd cur b depth hle hleaf]
        refine foldBranches_const _ _ _ ?_
        intro b' fd'
        exact ih fd'
          (cur.filter (fun item => (c.groupBy.getD depth (fun _ => "")) item == b.key))
          b' (depth + 1) (fun r hr => hw r (List.mem_of_mem_filter hr))

/-- With a total sum of 0 and no strictly negative weight, the loop
over the root branches leaves the final dataset untouched. -/
theorem thresholdTree_zero_total (c : Ctx) (data : List Record)
    (tree : List Branch) (fd : List Record)
    (hw : ∀ r ∈ data, jsLt (c.thresholdKey r) (JSNum.num 0) = false) :
    thresholdTree c (JSNum.num 0) data tree fd = fd := by
  induction tree with
  | nil => rfl
  | cons b rest ih =>
    rw [thresholdTree, ih]
    exact thresholdStep_zero_total c (c.drawDepth - 0) fd data b 0 hw

/-- Claim C5: when the d3-array sum of the threshold key over the whole
dataset is 0 and no record has a weight strictly below 0, the threshold
value is 0 for every branch (any finite fraction times total 0 is 0)
and `_thresholdFunction` returns the input unchanged: no removals, no
aggregates. -/
theorem c5_zero_total (cfg : TreemapConfig) (data : List Record)
    (tree : List Branch)
    (h : ∀ tk, cfg.thresholdKey = some tk →
      d3Sum data tk = JSNum.num 0 ∧
      ∀ r ∈ data, jsLt (tk r) (JSNum.num 0) = false) :
    _thresholdFunction cfg data tree = data ∧
    (∀ p : JSNum, isFiniteJS p = true → jsMul p (JSNum.num 0) = JSNum.num 0) := by
  constructor
  · rcases hth : cfg.threshold with _ | th <;>
      rcases htk : cfg.thresholdKey with _ | tk <;>
      simp only [_thresholdFunction, hth, htk]
    have h2 := h tk htk
    rw [h2.1]
    exact thresholdTree_zero_total _ data tree data h2.2
  · intro p hp
    obtain ⟨q, hq⟩ := isFiniteJS_num p hp
    rw [hq]
    show JSNum.num (ratMul q 0) = JSNum.num 0
    rw [ratMul_eq, mul_zero]

/-- A configuration with threshold 0.5 and the `v` accessor, for the
zero-total witness. -/
def cfgC5 : TreemapConfig :=
  { drawDepth := 1
    groupBy := [fun r => r.k]
    threshold := some (fun _ => JSNum.num (mkRat 1 2))
    thresholdKey := some (fun r => r.v)
    mergeFn := defaultMerge }

/-- Witness for `c5_zero_total` at a concrete input: one record of
weight 0, total sum 0, output unchanged. -/
theorem c5_zero_total_witness :
    _thresholdFunction cfgC5 [{ rid := 0, k := "a", v := JSNum.num 0 }]
        [Branch.node "a" []]
      = [{ rid := 0, k := "a", v := JSNum.num 0 }] ∧
    (∀ p : JSNum, isFiniteJS p = true → jsMul p (JSNum.num 0) = JSNum.num 0) :=
  c5_zero_total cfgC5 [{ rid := 0, k := "a", v := JSNum.num 0 }]
    [Branch.node "a" []]
    (fun tk htk => by
      have h2 : some (fun r : Record => r.v) = some tk := htk
      injection h2 with h3
      subst h3
      exact ⟨by decide, by decide⟩)

/-- The two JavaScript array objects `_thresholdFunction` can reach:
the caller's `data` array and the `finalDataset` array allocated by
`data.slice()`. Mutations (`splice`, `push`) are modelled as updates of
the cell they are invoked on, so this state makes it observable which
array the source mutates. -/
structure ArrSt where
  dataArr : List Record
  finalArr : List Record

/-- `finalDataset.splice(index, 1)` as a state update: only the
`finalDataset` cell changes (src/Treemap.js line 213). -/
def stSplice (st : ArrSt) (i : Int) : ArrSt :=
  { st with finalArr := spliceOne st.finalArr i }

/-- `finalDataset.push(mergedItem)` as a state update: only the
`finalDataset` cell changes (src/Treemap.js line 222). -/
def stPush (st : ArrSt) (r : Record) : ArrSt :=
  { st with finalArr := st.finalArr ++ [r] }

/-- The removal loop over the array state: identical to `removeLoop`
but with every splice routed through the state. -/
def removeLoopSt (tk : Record → JSNum) (tv : JSNum) :
    List Record → ArrSt → ArrSt × List Record
  | [], st => (st, [])
  | item :: rest, st =>
    let res := removeLoopSt tk tv rest st
    if jsLt (tk item) tv then
      (stSplice res.1 (jsIndexOf res.1.finalArr item), res.2 ++ [item])
    else res

/-- The `while (n--)` loop over child branches, over the array state. -/
def foldBranchesSt (f : Branch → ArrSt → ArrSt) :
    List Branch → ArrSt → ArrSt
  | [], st => st
  | b :: rest, st => f b (foldBranchesSt f rest st)

/-- `thresholdByDepth` over the array state: identical to
`thresholdStep` with the final dataset threaded as the mutable
`finalDataset` cell. -/
def thresholdStepSt (c : Ctx) (ts : JSNum) :
    Nat → ArrSt → List Record → Branch → Nat → ArrSt
  | 0, st, _, _, _ => st
  | fuel + 1, st, cur, b, depth =>
    if c.drawDepth ≤ depth then st
    else
      let acc := c.groupBy.getD depth (fun _ => "")
      let nextDataset := cur.filter (fun item => acc item == b.key)
      if depth + 1 = c.drawDepth then
        let thresholdPercent := clampPercent (c.threshold nextDataset)
        if isFiniteJS thresholdPercent = false then st
        else
          let thresholdValue := jsMul thresholdPercent ts
          let res := removeLoopSt c.thresholdKey thresholdValue nextDataset st
          if res.2.length > 0 then
            stPush res.1
              { c.mergeFn res.2 with _isAggregation := true,
                                     _threshold := some thresholdPercent }
          else res.1
      else
        foldBranchesSt
          (fun b' st' => thresholdStepSt c ts fuel st' nextDataset b' (depth + 1))
          b.values st

/-- The `while (n--)` loop over the root branches, over the array
state. -/
def thresholdTreeSt (c : Ctx) (ts : JSNum) (data : List Record) :
    List Branch → ArrSt → ArrSt
  | [], st => st
  | b :: rest, st =>
    thresholdStepSt c ts (c.drawDepth - 0) (thresholdTreeSt c ts data rest st)
      data b 0

/-- `_thresholdFunction` over the array state: `data.slice()` allocates
the `finalDataset` cell as a copy of the `data` cell, and the tree walk
mutates only through `stSplice`/`stPush`. -/
def _thresholdFunctionSt (cfg : TreemapConfig) (data : List Record)
    (tree : List Branch) : ArrSt :=
  match cfg.threshold, cfg.thresholdKey with
  | some th, some tk =>
    let c : Ctx := { drawDepth := cfg.drawDepth, groupBy := cfg.groupBy,
                     threshold := th, thresholdKey := tk,
                     mergeFn := cfg.mergeFn }
    let totalSum := d3Sum data tk
    thresholdTreeSt c totalSum data tree { dataArr := data, finalArr := data }
  | _, _ => { dataArr := data, finalArr := data }

theorem removeLoopSt_eq (tk : Record → JSNum) (tv : JSNum)
    (items : List Record) (st : ArrSt) :
    removeLoopSt tk tv items st =
      ({ st with finalArr := (removeLoop tk tv items st.finalArr).1 },
       (removeLoop tk tv items st.finalArr).2) := by
  induction items with
  | nil => rfl
  | cons item rest ih =>
    rw [removeLoopSt, removeLoop, ih]
    cases hlt : jsLt (tk item) tv <;> simp [stSplice]

theorem foldBranchesSt_eq (f : Branch → List Record → List Record)
    (g : Branch → ArrSt → ArrSt)
    (hfg : ∀ b st, g b st = { st with finalArr := f b st.finalArr })
    (bs : List Branch) (st : ArrSt) :
    foldBranchesSt g bs st = { st with finalArr := foldBranches f bs st.finalArr } := by
  induction bs with
  | nil => rfl
  | cons b rest ih => rw [foldBranchesSt, foldBranches, ih, hfg]

/-- The array-state tree walk only ever writes the `finalDataset` cell:
the `data` cell is carried through unchanged and the `finalDataset`
cell evolves exactly as the functional `thresholdStep`. -/
theorem thresholdStepSt_eq (c : Ctx) (ts : JSNum) :
    ∀ (fuel : Nat) (st : ArrSt) (cur : List Record) (b : Branch) (depth : Nat),
      thresholdStepSt c ts fuel st cur b depth =
        { st with finalArr := thresholdStep c ts fuel st.finalArr cur b depth } := by
  intro fuel
  induction fuel with
  | zero =>
    intro st cur b depth
    rfl
  | succ n ih =>
    intro st cur b depth
    rw [thresholdStepSt, thresholdStep]
    by_cases hle : c.drawDepth ≤ depth
    · simp only [if_pos hle]
    · simp only [if_neg hle]
      by_cases hleaf : depth + 1 = c.drawDepth
      · simp only [if_pos hleaf]
        rw [removeLoopSt_eq]
        dsimp only
        by_cases hfin : isFiniteJS (clampPercent (c.threshold (cur.filter (fun item =>
            (c.groupBy.getD depth (fun _ => "")) item == b.key)))) = false
        · simp only [if_pos hfin]
        · simp only [if_neg hfin]
          by_cases hlen : 0 <
            (removeLoop c.thresholdKey (jsMul (clampPercent (c.threshold (cur.filter (fun item =>
              (c.groupBy.getD depth (fun _ => "")) item == b.key)))) ts)
              (cur.filter (fun item => (c.groupBy.getD depth (fun _ => "")) item == b.key))
              st.finalArr).2.length
          · simp only [if_pos hlen]
            rfl
          · simp only [if_neg hlen]
      · simp only [if_neg hleaf]
        exact foldBranchesSt_eq _ _ (fun b' st' => ih st' _ b' (depth + 1)) b.values st

theorem thresholdTreeSt_eq (c : Ctx) (ts : JSNum) (data : List Record)
    (tree : List Branch) (st : ArrSt) :
    thresholdTreeSt c ts data tree st =
      { st with finalArr := thresholdTree c ts data tree st.finalArr } := by
  induction tree with
  | nil => rfl
  | cons b rest ih =>
    rw [thresholdTreeSt, thresholdTree, ih, thresholdStepSt_eq]
    rfl

/-- Claim C9: when `threshold` and `thresholdKey` are both present,
`_thresholdFunction` never mutates the caller's `data` array: in the
array-state model, after the call the `data` cell holds the same
records in the same order as before (every `splice`/`push` targets the
`finalDataset` cell allocated by `data.slice()`), and the returned
dataset is the separately allocated `finalDataset` cell, whose value is
the functional result. -/
theorem c9_no_input_mutation (cfg : TreemapConfig) (data : List Record)
    (tree : List Branch) (th : List Record → JSNum) (tk : Record → JSNum)
    (hth : cfg.threshold = some th) (htk : cfg.thresholdKey = some tk) :
    (_thresholdFunctionSt cfg data tree).dataArr = data ∧
    (_thresholdFunctionSt cfg data tree).finalArr
      = _thresholdFunction cfg data tree := by
  simp only [_thresholdFunctionSt, _thresholdFunction, hth, htk]
  rw [thresholdTreeSt_eq]
  exact ⟨rfl, rfl⟩

/-- Witness for `c9_no_input_mutation` at a concrete input (the
scenario-1 data): the `data` cell is untouched and the returned
`finalDataset` cell equals the functional output. -/
theorem c9_no_input_mutation_witness :
    (_thresholdFunctionSt cfgC6 dataC6 treeC6).dataArr = dataC6 ∧
    (_thresholdFunctionSt cfgC6 dataC6 treeC6).finalArr
      = _thresholdFunction cfgC6 dataC6 treeC6 :=
  c9_no_input_mutation cfgC6 dataC6 treeC6 (fun _ => JSNum.num (mkRat 1 2))
    (fun r => r.v) rfl rfl

/-- Model of d3plus-common `accessor(key)` (an external collaborator):
`d => d[key]`, reading this record shape's numeric fields (a missing
key reads `undefined`, which is NaN in numeric use). -/
def accessor (key : String) : Record → JSNum :=
  fun r => if key = "value" then r.value else if key = "v" then r.v else JSNum.nan

/-- The accessor state of a `Treemap` instance relevant to the
`sum`/`thresholdKey` coupling. -/
structure TreemapAccessors where
  _sum : Record → JSNum
  _thresholdKey : Record → JSNum

/-- The constructor defaults (src/Treemap.js lines 45-46):
`this._sum = accessor("value"); this._thresholdKey = this._sum`. -/
def treemapInit : TreemapAccessors :=
  { _sum := accessor "value", _thresholdKey := accessor "value" }

/-- An argument to the `Treemap.sum` setter: a function, or any other
value, which the source routes through `accessor`. -/
inductive SumArg where
  | fn : (Record → JSNum) → SumArg
  | key : String → SumArg

/-- The setter branch of `Treemap.sum(value)` (src/Treemap.js lines
268-273): `this._sum = typeof value === "function" ? value :
accessor(value); this._thresholdKey = this._sum`. -/
def sumMethod (s : TreemapAccessors) (arg : SumArg) : TreemapAccessors :=
  let a :=
    match arg with
    | SumArg.fn f => f
    | SumArg.key k => accessor k
  { s with _sum := a, _thresholdKey := a }

/-- Claim C10: the constructor couples `_thresholdKey` to `_sum`, every
call of the `sum` setter re-establishes `_sum = _thresholdKey`, and
hence after any sequence of `sum` calls the weight accessor used for
thresholding equals the accessor used for hierarchy summing. -/
theorem c10_sum_couples_thresholdKey :
    treemapInit._sum = treemapInit._thresholdKey ∧
    (∀ (s : TreemapAccessors) (arg : SumArg),
      (sumMethod s arg)._sum = (sumMethod s arg)._thresholdKey) ∧
    (∀ args : List SumArg,
      (args.foldl sumMethod treemapInit)._sum
        = (args.foldl sumMethod treemapInit)._thresholdKey) := by
  refine ⟨rfl, fun s arg => rfl, ?_⟩
  have key : ∀ (args : List SumArg) (s : TreemapAccessors),
      s._sum = s._thresholdKey →
      (args.foldl sumMethod s)._sum = (args.foldl sumMethod s)._thresholdKey := by
    intro args
    induction args with
    | nil => exact fun s hs => hs
    | cons a rest ih => exact fun s hs => ih (sumMethod s a) rfl
  exact fun args => key args treemapInit rfl
